import Mathlib

/-!
Verification of the tree-text transformation engine of
`hybridLambdaMaker.py` (HybridLambdaTools).

Strings are embedded as `List Char`.  The helper module
`GeneralStringOperations` (GSO) is not part of the sources; its three
primitives `exstr`, `replstr` and `csplit` are modelled from the spec.
Python floats on the decimal tokens handled here are modelled exactly as
scaled naturals `(mantissa, scale)` denoting `mantissa / 10 ^ scale`.
-/

namespace HybridLambda

/-- Strings are lists of characters. -/
abbrev Str := List Char

/-- `hasPre pat s` holds when `pat` is an initial segment of `s`. -/
def hasPre : Str → Str → Bool
  | [], _ => true
  | _ :: _, [] => false
  | a :: as, b :: bs => if a = b then hasPre as bs else false

/-- Index of the first occurrence of `pat` in `s`, if any
(left-to-right scan). -/
def strFind : Str → Str → Option Nat
  | [], pat => if hasPre pat [] then some 0 else none
  | c :: cs, pat =>
    if hasPre pat (c :: cs) then some 0
    else Option.map (fun n => n + 1) (strFind cs pat)

/-- Python's substring containment test `pat in s`. -/
def containsStr (s pat : Str) : Bool := (strFind s pat).isSome

/-- Modelled from the spec: GSO.exstr is missing from the sources.  It
extracts the substring strictly between the first occurrence of `a` and
the next occurrence of `b` after it ("the branch-length token is the
run of characters between that point and the next occurrence of the
terminator"). -/
def exstr (s a b : Str) : Option Str :=
  match strFind s a with
  | none => none
  | some i =>
    let r := List.drop (i + a.length) s
    match strFind r b with
    | none => none
    | some j => some (List.take j r)

/-- Modelled from the spec: GSO.replstr is missing from the sources.  It
replaces the substring strictly between the first occurrence of `a` and
the next occurrence of `b` after it with `rep`, keeping `a` and the
terminator ("replacing the first occurrence of label:L with
label:half"). -/
def replstr (s a b rep : Str) : Option Str :=
  match strFind s a with
  | none => none
  | some i =>
    let r := List.drop (i + a.length) s
    match strFind r b with
    | none => none
    | some j => some (List.take (i + a.length) s ++ rep ++ List.drop j r)

/-- Modelled from the spec: GSO.csplit is missing from the sources.  It
splits `s` at the first occurrence of `k`; with `rightflag = true` the
occurrence of `k` starts the right part ("prefix ending just before
label, remainder starting at label"), with `rightflag = false` it ends
the left part ("subtreeSegment = label:half and everything after
belongs to suffix"). -/
def csplit (s k : Str) (rightflag : Bool) : Option (Str × Str) :=
  match strFind s k with
  | none => none
  | some i =>
    if rightflag then some (List.take i s, List.drop i s)
    else some (List.take (i + k.length) s, List.drop (i + k.length) s)

/-! ### Exact decimal arithmetic (model of Python floats on the tokens
that occur in branch lengths) -/

/-- Decimal digit test. -/
def isDig (c : Char) : Bool := ('0' ≤ c) && (c ≤ '9')

/-- Numeric value of a digit character. -/
def digitVal (c : Char) : Nat := c.toNat - 48

/-- Value of a string of decimal digits (most significant first). -/
def digitsToNat (s : Str) : Nat := s.foldl (fun acc c => acc * 10 + digitVal c) 0

/-- `parseMantissa s = some (n, d)` when `s` is a plain decimal token
(digits with at most one point, at least one digit), denoting
`n / 10 ^ d` exactly. -/
def parseMantissa (s : Str) : Option (Nat × Nat) :=
  let ip := s.takeWhile isDig
  match s.dropWhile isDig with
  | [] => if ip.isEmpty then none else some (digitsToNat ip, 0)
  | c :: rest =>
    if c = '.' && rest.all isDig && !(ip.isEmpty && rest.isEmpty)
    then some (digitsToNat ip * 10 ^ rest.length + digitsToNat rest, rest.length)
    else none

/-- Exponent marker of a float literal. -/
def expChar (c : Char) : Bool := c = 'e' || c = 'E'

/-- Split a token at its first exponent marker: the part before it, and
the part after it when a marker exists (the marker itself is dropped). -/
def splitExpChar : Str → Str × Option Str
  | [] => ([], none)
  | c :: cs =>
    if expChar c then ([], some cs)
    else
      let p := splitExpChar cs
      (c :: p.1, p.2)

/-- Parse the exponent part after the marker: an optional sign and at
least one digit. -/
def parseExpPart (s : Str) : Option Int :=
  match s with
  | [] => none
  | c0 :: ds =>
    if c0 = '+' then
      if ds = [] || !ds.all isDig then none else some (digitsToNat ds : Int)
    else if c0 = '-' then
      if ds = [] || !ds.all isDig then none else some (-(digitsToNat ds : Int))
    else if !(c0 :: ds).all isDig then none
    else some (digitsToNat (c0 :: ds) : Int)

/-- Apply a decimal exponent to a scaled mantissa value. -/
def applyExp (p : Nat × Nat) (x : Int) : Nat × Nat :=
  if 0 ≤ x then (p.1 * 10 ^ x.toNat, p.2) else (p.1, p.2 + (-x).toNat)

/-- `parseDec s = some (n, d)` when `s` is a float token in the
sign-free grammar reachable between `label:` and a terminator — digits
with at most one point and an optional `e`/`E` exponent part — denoting
`n / 10 ^ d` exactly; `none` stands for Python's `ValueError`.  Signed
and whitespace-padded forms, which `float()` also accepts but which the
spec's data model (non-negative branch lengths) excludes, are outside
the model. -/
def parseDec (s : Str) : Option (Nat × Nat) :=
  let q := splitExpChar s
  match q.2 with
  | none => parseMantissa q.1
  | some ex =>
    match parseMantissa q.1, parseExpPart ex with
    | some md, some x => some (applyExp md x)
    | _, _ => none

/-- The character alphabet of tokens `parseDec` can accept. -/
def tokenOk (c : Char) : Bool :=
  isDig c || c = '.' || expChar c || c = '+' || c = '-'

/-- Remove trailing decimal zeros while keeping at least one fractional
digit. -/
def stripZerosAux : Nat → Nat → Nat × Nat
  | n, 0 => (n, 0)
  | n, 1 => (n, 1)
  | n, d + 2 => if n % 10 = 0 then stripZerosAux (n / 10) (d + 1) else (n, d + 2)

/-- Exact decimal halving: `n / 10 ^ d` becomes `5 n / 10 ^ (d + 1)`,
normalised.  This is the idealized halving the original claim asserts,
not what the program computes; it is kept to state how the program's
floating-point result diverges from it. -/
def halveDec (p : Nat × Nat) : Nat × Nat := stripZerosAux (5 * p.1) (p.2 + 1)

/-- Digit character of a value below ten. -/
def digChar : Nat → Char
  | 0 => '0' | 1 => '1' | 2 => '2' | 3 => '3' | 4 => '4'
  | 5 => '5' | 6 => '6' | 7 => '7' | 8 => '8' | _ => '9'

/-- Decimal digits of a natural number (fuel-indexed so that the kernel
can evaluate it). -/
def natDigitsAux : Nat → Nat → Str
  | 0, _ => []
  | fuel + 1, n =>
    if n < 10 then [digChar n]
    else natDigitsAux fuel (n / 10) ++ [digChar (n % 10)]

/-- Decimal digits of a natural number, most significant first; models
Python's `str` on a non-negative integer. -/
def natDigits (n : Nat) : Str := natDigitsAux (n + 1) n

/-- Exact decimal rendering of `(n, d)`: integer part, point, `d`
fractional digits.  This is NOT Python's `str`, which rounds to 12
significant digits; it is kept to state what exact halving would write,
contrasted with `pyStr` in the C1 counterexample. -/
def renderDec (p : Nat × Nat) : Str :=
  let fd := natDigits (p.1 % 10 ^ p.2)
  natDigits (p.1 / 10 ^ p.2) ++ '.' :: (List.replicate (p.2 - fd.length) '0' ++ fd)

/-! ### Model of CPython floats: IEEE-754 double rounding and the
12-significant-digit `str` rendering of Python 2 -/

/-- Number of binary digits of `n` (fuel-indexed so that the kernel can
evaluate it). -/
def bitLenAux : Nat → Nat → Nat
  | 0, _ => 0
  | fuel + 1, n => if n = 0 then 0 else bitLenAux fuel (n / 2) + 1

/-- Number of binary digits of `n`; `bitLen n - 1` is `floor (log2 n)`
for positive `n`. -/
def bitLen (n : Nat) : Nat := bitLenAux (n + 1) n

/-- `N / D` rounded to the nearest integer, ties to even (`D > 0`). -/
def rheDiv (N D : Nat) : Nat :=
  let q := N / D
  let r := N % D
  if D < 2 * r then q + 1
  else if 2 * r < D then q
  else q + q % 2

/-- Is `n / 10 ^ d ≥ 2 ^ k`?  (Exact, by clearing denominators.) -/
def cmpPow2 (n d : Nat) (k : Int) : Bool :=
  10 ^ d * 2 ^ k.toNat ≤ n * 2 ^ (-k).toNat

/-- The IEEE-754 double nearest `n / 10 ^ d` (round half to even),
returned as a dyadic `(m, e)` with value `m * 2 ^ e` and, for positive
values, `2 ^ 52 ≤ m < 2 ^ 53`.  Models CPython's `float()` in the
normal range; subnormal underflow and overflow, unreachable for
realistic branch lengths, are outside the model. -/
def pyFloat (p : Nat × Nat) : Nat × Int :=
  if p.1 = 0 then (0, 0)
  else
    let a : Int := (bitLen p.1 : Int) - 1
    let b : Int := (bitLen (10 ^ p.2) : Int) - 1
    let e2 : Int := if cmpPow2 p.1 p.2 (a - b) then a - b else a - b - 1
    let e : Int := e2 - 52
    let m := rheDiv (p.1 * 2 ^ (-e).toNat) (10 ^ p.2 * 2 ^ e.toNat)
    if m = 2 ^ 53 then (2 ^ 52, e + 1) else (m, e)

/-- `brlen * 0.5` on a double: exact halving (the exponent drops by
one; multiplying a normal double by `0.5` is exact). -/
def pyHalf (p : Nat × Int) : Nat × Int :=
  if p.1 = 0 then p else (p.1, p.2 - 1)

/-- Rational value of a dyadic `(m, e)`. -/
def dyVal (p : Nat × Int) : ℚ := (p.1 : ℚ) * 2 ^ p.2

/-- Is `m * 2 ^ e ≥ 10 ^ E`?  (Exact, by clearing denominators.) -/
def cmpPow10 (m : Nat) (e E : Int) : Bool :=
  2 ^ (E - e).toNat * 5 ^ E.toNat ≤ m * 2 ^ (e - E).toNat * 5 ^ (-E).toNat

/-- `floor (log10 (m * 2 ^ e))` for `2 ^ 52 ≤ m < 2 ^ 53`: a rational
estimate of `log10 2` narrows the answer to a five-candidate window,
settled by exact comparisons. -/
def decExpOf (m : Nat) (e : Int) : Int :=
  let e2 : Int := (bitLen m : Int) - 1 + e
  let c : Int := Int.fdiv (e2 * 30103) 100000
  if cmpPow10 m e (c + 2) then c + 2
  else if cmpPow10 m e (c + 1) then c + 1
  else if cmpPow10 m e c then c
  else if cmpPow10 m e (c - 1) then c - 1
  else c - 2

/-- Round the positive double `(m, e)` to 12 significant decimal
digits, ties to even: the digit block in `[10^11, 10^12)` and the
decimal exponent. -/
def round12 (m : Nat) (e : Int) : Nat × Int :=
  let E := decExpOf m e
  let k : Int := 11 - E
  let ds := rheDiv (m * 2 ^ e.toNat * 10 ^ k.toNat)
    (2 ^ (-e).toNat * 10 ^ (-k).toNat)
  if ds = 10 ^ 12 then (10 ^ 11, E + 1) else (ds, E)

/-- Strip trailing `'0'` characters. -/
def stripTail0 (s : Str) : Str :=
  (s.reverse.dropWhile (fun c => c = '0')).reverse

/-- `%g` formatting of the 12-digit block `ds` at decimal exponent `X`:
trailing zeros stripped, fixed notation for `-4 ≤ X < 12`, otherwise
scientific notation with a signed, two-digit-padded exponent. -/
def fmtG (ds : Nat) (X : Int) : Str :=
  let L := stripTail0 (natDigits ds)
  if -4 ≤ X && X < 12 then
    if 0 ≤ X then
      if (L.length : Int) ≤ X + 1 then
        L ++ List.replicate (X + 1 - (L.length : Int)).toNat '0'
      else L.take (X + 1).toNat ++ '.' :: L.drop (X + 1).toNat
    else ('0' :: '.' :: List.replicate ((-X).toNat - 1) '0') ++ L
  else
    (match L with
     | [] => L
     | d0 :: rest => if rest.isEmpty then [d0] else d0 :: '.' :: rest) ++
    'e' :: (if 0 ≤ X then '+' else '-') ::
    (List.replicate (2 - (natDigits X.natAbs).length) '0' ++ natDigits X.natAbs)

/-- Python 2's `str()` of a non-negative double: the `%.12g` rendering,
with `".0"` appended when the result has neither a point nor an
exponent (`str(2.0) = "2.0"`). -/
def pyStr (p : Nat × Int) : Str :=
  if p.1 = 0 then "0.0".data
  else
    let r := round12 p.1 p.2
    let s := fmtG r.1 r.2
    if s.contains '.' || s.contains 'e' then s else s ++ ".0".data

/-! ### The transformation engine (translated from `hybridLambdaMaker.py`) -/

/-- Error kinds of the run: `missingTaxon` is the explicit abort of
`addHybrDict`, `equalLikelihood` the explicit abort of the pre-check in
`main`, `malformedLength` an uncaught failure while extracting or
parsing a branch length, and `badParentInfo` a crash while the regex
groups or the dictionary entries are taken apart. -/
inductive HybErr
  | missingTaxon
  | equalLikelihood
  | malformedLength
  | badParentInfo
deriving DecidableEq

instance {ε α : Type} [DecidableEq ε] [DecidableEq α] : DecidableEq (Except ε α) :=
  fun a b =>
  match a, b with
  | .error e, .error f =>
    if h : e = f then isTrue (by rw [h]) else isFalse fun hh => h (Except.error.inj hh)
  | .error _, .ok _ => isFalse fun hh => Except.noConfusion hh
  | .ok _, .error _ => isFalse fun hh => Except.noConfusion hh
  | .ok x, .ok y =>
    if h : x = y then isTrue (by rw [h]) else isFalse fun hh => h (Except.ok.inj hh)

/-- One arm of the halving step of `addHybrDict` (lines 70-75): extract
the token between `key ++ ":"` and the terminator `term`, convert it to
a double via `float()`, and replace it by `str()` of half that double;
returns the new text together with the halved double. -/
def tryHalve (t key : Str) (term : Char) : Option (Str × (Nat × Int)) :=
  match exstr t (key ++ [':']) [term] with
  | none => none
  | some tok =>
    match parseDec tok with
    | none => none
    | some L =>
      match replstr t (key ++ [':']) [term] (pyStr (pyHalf (pyFloat L))) with
      | none => none
      | some t1 => some (t1, pyHalf (pyFloat L))

/-- The halving step of `addHybrDict`: the `try` arm uses terminator
`')'`; on failure (Python's `ValueError`) the `except` arm retries with
terminator `','`. -/
def splitBranch (t key : Str) : Option (Str × (Nat × Int)) :=
  match tryHalve t key ')' with
  | some r => some r
  | none => tryHalve t key ','

/-- The splice step of `addHybrDict` (lines 77-88): cut the text before
the first occurrence of `key`, cut again after `key ++ ":" ++ halfStr`,
and wrap the middle segment into the synthetic hybrid clade
`(h#prob:halfStr,segment):halfStr`. -/
def spliceStep (t key halfStr prob : Str) : Option Str :=
  match csplit t key true with
  | none => none
  | some s1 =>
    match csplit s1.2 (key ++ ':' :: halfStr) false with
    | none => none
    | some s2 =>
      some (s1.1 ++
        ('(' :: 'h' :: '#' :: prob ++ ':' :: halfStr ++ ',' :: s2.1) ++
        ')' :: ':' :: halfStr ++ s2.2)

/-- One iteration of the loop of `addHybrDict` for the entry
`(key, val)`: the membership check (`sys.exit` on a missing taxon),
then the halving step, then the splice step. -/
def hybrStep (t key val : Str) : Except HybErr Str :=
  if containsStr t key = false then .error .missingTaxon
  else
    match splitBranch t key with
    | none => .error .malformedLength
    | some r =>
      match spliceStep r.1 key (pyStr r.2) val with
      | none => .error .malformedLength
      | some t2 => .ok t2

/-- `addHybrDict`: fold `hybrStep` over the dictionary entries, each
iteration acting on the text produced by the previous one. -/
def addHybrDict (t : Str) : List (Str × Str) → Except HybErr Str
  | [] => .ok t
  | kv :: rest =>
    match hybrStep t kv.1 kv.2 with
    | .error e => .error e
    | .ok t1 => addHybrDict t1 rest

/-- The scan of `addNodeNumb` with the counter made explicit: each `')'`
is emitted followed by `'s'` and the counter's digits, after which the
counter drops by one; every other character is emitted unchanged. -/
def addNodeNumbGo : Str → Nat → Str
  | [], _ => []
  | c :: cs, n =>
    if c = ')' then c :: 's' :: natDigits n ++ addNodeNumbGo cs (n - 1)
    else c :: addNodeNumbGo cs n

/-- `addNodeNumb` (lines 28-43): label every closing parenthesis,
counting down from `count(")") * 2`. -/
def addNodeNumb (s : Str) : Str := addNodeNumbGo s (s.count ')' * 2)

/-- The integer labels that the scan of `addNodeNumb` emits, in emission
order, starting from counter value `n`. -/
def nodeLabels : Str → Nat → List Nat
  | [], _ => []
  | c :: cs, n => if c = ')' then n :: nodeLabels cs (n - 1) else nodeLabels cs n

/-- The labels `addNodeNumb` appends to the closing parentheses of `s`,
scanned left to right. -/
def emittedLabels (s : Str) : List Nat := nodeLabels s (s.count ')' * 2)

/-- Re-interleave a list of labels into a string: each `')'` receives
`'s'` and the digits of the next label.  Used to state that
`addNodeNumb` appends exactly `emittedLabels`. -/
def spliceLabels : Str → List Nat → Str
  | [], _ => []
  | c :: cs, ls =>
    if c = ')' then
      match ls with
      | [] => c :: spliceLabels cs []
      | l :: ls' => c :: 's' :: natDigits l ++ spliceLabels cs ls'
    else c :: spliceLabels cs ls

/-- One transition of the node-labeler state machine as the spec words
it: read `c`; on `')'` emit `c`, the literal `'s'` and the current
counter value and decrement the counter; otherwise emit `c`
unchanged. -/
def specScanStep (st : Nat × Str) (c : Char) : Nat × Str :=
  if c = ')' then (st.1 - 1, st.2 ++ c :: 's' :: natDigits st.1)
  else (st.1, st.2 ++ [c])

/-- The spec's node-labeler: a single left-to-right scan driven by
`specScanStep` from counter value `init`. -/
def specScan (s : Str) (init : Nat) : Str :=
  (List.foldl specScanStep (init, []) s).2

/-! ### The orchestrator (`main`) -/

/-- Word-character test of the regex class `\w`. -/
def wordChar (c : Char) : Bool :=
  isDig c || ('a' ≤ c && c ≤ 'z') || ('A' ≤ c && c ≤ 'Z') || c = '_'

/-- Match the regex fragment `\d*\.\d+` at the start of `s`, returning
the matched group and the rest.  The greedy runs need no backtracking
here: shortening a digit run only moves a digit into a position that
must hold `'.'` or `','`. -/
def matchProb (s : Str) : Option (Str × Str) :=
  match s.dropWhile isDig with
  | '.' :: r2 =>
    if (r2.takeWhile isDig).isEmpty then none
    else some (s.takeWhile isDig ++ '.' :: r2.takeWhile isDig, r2.dropWhile isDig)
  | _ => none

/-- Match the full pattern `\w+:(\d*\.\d+),\w+:(\d*\.\d+)` at the start
of `s`, returning the two groups. -/
def matchPairAt (s : Str) : Option (Str × Str) :=
  if (s.takeWhile wordChar).isEmpty then none
  else
    match s.dropWhile wordChar with
    | ':' :: r1 =>
      match matchProb r1 with
      | none => none
      | some g1 =>
        match g1.2 with
        | ',' :: r3 =>
          if (r3.takeWhile wordChar).isEmpty then none
          else
            match r3.dropWhile wordChar with
            | ':' :: r4 =>
              match matchProb r4 with
              | none => none
              | some g2 => some (g1.1, g2.1)
            | _ => none
        | _ => none
    | _ => none

/-- `re.search` of the pattern: first position, scanning left to right,
where `matchPairAt` succeeds. -/
def regexSearch : Str → Option (Str × Str)
  | [] => none
  | c :: cs =>
    match matchPairAt (c :: cs) with
    | some g => some g
    | none => regexSearch cs

/-- The equal-likelihood pre-check of `main` (lines 100-106): only runs
when `parentInfo` contains a comma; a failed regex search is the
`AttributeError` crash of `search.group(1)`. -/
def precheck (parentInfo : Str) : Except HybErr Unit :=
  if containsStr parentInfo [','] then
    match regexSearch parentInfo with
    | none => .error .badParentInfo
    | some g => if g.1 = g.2 then .error .equalLikelihood else .ok ()
  else .ok ()

/-- Python's `str.split(sep)` for a one-character separator. -/
def splitOnChar (sep : Char) : Str → List Str
  | [] => [[]]
  | c :: cs =>
    if c = sep then [] :: splitOnChar sep cs
    else
      match splitOnChar sep cs with
      | [] => [[c]]
      | h :: t => (c :: h) :: t

/-- Insert into an association list with Python-dict overwrite
semantics (an existing key keeps its position, its value is replaced). -/
def insertKV : List (Str × Str) → Str → Str → List (Str × Str)
  | [], k, v => [(k, v)]
  | kv :: rest, k, v =>
    if kv.1 = k then (kv.1, v) :: rest else kv :: insertKV rest k v

/-- Build `aDict` from the comma-separated entries of `parentInfo`
(lines 133-135): each entry is split at `':'`; an entry with no colon is
the `IndexError` crash of `i.split(":")[1]`. -/
def buildDict : List Str → List (Str × Str) → Option (List (Str × Str))
  | [], d => some d
  | e :: es, d =>
    match splitOnChar ':' e with
    | [] => none
    | [_] => none
    | k :: v :: _ => buildDict es (insertKV d k v)

/-- Whitespace test of Python's `str.strip`. -/
def isSpace (c : Char) : Bool :=
  c = ' ' || c = '\t' || c = '\n' || c = '\r' || c = '\x0b' || c = '\x0c'

/-- Python's `str.strip()`. -/
def stripWS (s : Str) : Str :=
  ((s.dropWhile isSpace).reverse.dropWhile isSpace).reverse

/-- Line filter of `main` (lines 111-115): keep a line when its stripped
form is non-empty and does not start with `'#'`; the original
(unstripped) line is what is kept. -/
def keepLine (l : Str) : Bool :=
  match stripWS l with
  | [] => false
  | c :: _ => c ≠ '#'

/-- The per-tree pipeline of `main` (lines 118-145): normalize
(the dendropy parse / ladderize / serialize round-trip and the bracket
stripping, out of scope per the spec, abstracted as `normalize`), build
`aDict`, apply `addHybrDict`, then `addNodeNumb`. -/
def pipeline (normalize : Str → Str) (parentInfo line : Str) : Except HybErr Str :=
  match buildDict (splitOnChar ',' parentInfo) [] with
  | none => .error .badParentInfo
  | some d =>
    match addHybrDict (normalize line) d with
    | .error e => .error e
    | .ok t => .ok (addNodeNumb t)

/-- Process the kept tree lines in order, aborting at the first error. -/
def processTrees (normalize : Str → Str) (parentInfo : Str) : List Str → Except HybErr (List Str)
  | [] => .ok []
  | t :: ts =>
    match pipeline normalize parentInfo t with
    | .error e => .error e
    | .ok o =>
      match processTrees normalize parentInfo ts with
      | .error e => .error e
      | .ok os => .ok (o :: os)

/-- Join with newlines, as `"\n".join`. -/
def joinNL : List Str → Str
  | [] => []
  | [s] => s
  | s :: rest => s ++ '\n' :: joinNL rest

/-- The pure core of `main`: pre-check, filter the input lines, process
each kept line, and produce the output file name (base name of the
input plus the suffix chosen by the arity of the specification) and the
joined output text.  An `error` result is a run that terminated without
writing any output file. -/
def runModel (normalize : Str → Str) (base : Str) (lines : List Str)
    (parentInfo : Str) : Except HybErr (Str × Str) :=
  match precheck parentInfo with
  | .error e => .error e
  | .ok _ =>
    match processTrees normalize parentInfo (lines.filter keepLine) with
    | .error e => .error e
    | .ok outs =>
      .ok (base ++ (if containsStr parentInfo [','] then ".wHybrid.tre".data
                    else ".wSister.tre".data),
           joinNL outs)

/-! ### Lemmas about the string search -/

theorem hasPre_append_self (a x : Str) : hasPre a (a ++ x) = true := by
  induction a with
  | nil => rfl
  | cons c cs ih => simp [hasPre, ih]

theorem hasPre_nil_iff (pat : Str) : hasPre pat [] = true ↔ pat = [] := by
  cases pat <;> simp [hasPre]

theorem hasPre_single (c : Char) (s : Str) :
    hasPre [c] s = true ↔ ∃ u, s = c :: u := by
  cases s with
  | nil => simp [hasPre]
  | cons b bs =>
    constructor
    · intro h
      by_cases hcb : c = b
      · exact ⟨bs, by rw [hcb]⟩
      · simp [hasPre, hcb] at h
    · rintro ⟨u, hu⟩
      cases hu
      simp [hasPre]

theorem strFind_locate : ∀ (s pat : Str) (i : Nat),
    hasPre pat (s.drop i) = true →
    (∀ j, j < i → hasPre pat (s.drop j) = false) →
    strFind s pat = some i := by
  intro s
  induction s with
  | nil =>
    intro pat i h1 h2
    cases i with
    | zero =>
      simp only [List.drop_nil] at h1
      simp [strFind, h1]
    | succ k =>
      have := h2 0 (Nat.succ_pos k)
      simp only [List.drop_nil] at this h1
      rw [this] at h1
      exact absurd h1 (by simp)
  | cons c cs ih =>
    intro pat i h1 h2
    cases i with
    | zero =>
      simp only [List.drop_zero] at h1
      simp [strFind, h1]
    | succ k =>
      have h0 : hasPre pat (c :: cs) = false := by
        have := h2 0 (Nat.succ_pos k)
        simpa using this
      rw [strFind, h0]
      simp only [Bool.false_eq_true, if_false]
      have hrec : strFind cs pat = some k := by
        apply ih pat k
        · exact h1
        · intro j hj
          exact h2 (j + 1) (Nat.succ_lt_succ hj)
      rw [hrec]
      rfl

theorem strFind_sound : ∀ (s pat : Str) (i : Nat), strFind s pat = some i →
    hasPre pat (s.drop i) = true ∧ ∀ j, j < i → hasPre pat (s.drop j) = false := by
  intro s
  induction s with
  | nil =>
    intro pat i h
    rw [strFind] at h
    by_cases hp : hasPre pat [] = true
    · rw [if_pos hp] at h
      cases h
      exact ⟨hp, fun j hj => absurd hj (Nat.not_lt_zero j)⟩
    · rw [if_neg hp] at h
      exact absurd h (by simp)
  | cons c cs ih =>
    intro pat i h
    rw [strFind] at h
    by_cases hp : hasPre pat (c :: cs) = true
    · rw [if_pos hp] at h
      cases h
      exact ⟨hp, fun j hj => absurd hj (Nat.not_lt_zero j)⟩
    · rw [if_neg hp] at h
      simp only [Option.map_eq_some'] at h
      obtain ⟨k, hk, hki⟩ := h
      obtain ⟨ha, hb⟩ := ih pat k hk
      subst hki
      refine ⟨ha, ?_⟩
      intro j hj
      cases j with
      | zero => simpa using hp
      | succ m => exact hb m (Nat.lt_of_succ_lt_succ hj)

theorem strFind_prepend (pre rest pat : Str)
    (h1 : hasPre pat rest = true)
    (h2 : ∀ j, j < pre.length → hasPre pat ((pre ++ rest).drop j) = false) :
    strFind (pre ++ rest) pat = some pre.length := by
  apply strFind_locate
  · rw [List.drop_left]
    exact h1
  · exact h2

theorem strFind_char_append (c : Char) (xs ys : Str) (h : c ∉ xs) :
    strFind (xs ++ c :: ys) [c] = some xs.length := by
  induction xs with
  | nil =>
    have hp : hasPre [c] (c :: ys) = true := by simp [hasPre]
    simp [strFind, hp]
  | cons x xs' ih =>
    have hcx : c ≠ x := fun hh => h (hh ▸ List.mem_cons_self x xs')
    have h0 : hasPre [c] (x :: (xs' ++ c :: ys)) = false := by
      simp [hasPre, hcx]
    simp only [List.cons_append]
    rw [strFind, h0]
    simp only [Bool.false_eq_true, if_false]
    rw [ih (fun hm => h (List.mem_cons_of_mem x hm))]
    rfl

theorem strFind_char_gt (c b : Char) (xs ys : Str) (hnot : c ∉ xs) (hcb : c ≠ b)
    (j : Nat) (h : strFind (xs ++ b :: ys) [c] = some j) : xs.length < j := by
  induction xs generalizing j with
  | nil =>
    simp only [List.nil_append] at h
    rw [strFind] at h
    have h0 : hasPre [c] (b :: ys) = false := by simp [hasPre, hcb]
    rw [h0] at h
    simp only [Bool.false_eq_true, if_false] at h
    simp only [Option.map_eq_some'] at h
    obtain ⟨k, _, hk⟩ := h
    simp only [List.length_nil]
    omega
  | cons x xs' ih =>
    have hcx : c ≠ x := fun hh => hnot (hh ▸ List.mem_cons_self x xs')
    simp only [List.cons_append] at h
    rw [strFind] at h
    have h0 : hasPre [c] (x :: (xs' ++ b :: ys)) = false := by
      simp [hasPre, hcx]
    rw [h0] at h
    simp only [Bool.false_eq_true, if_false] at h
    simp only [Option.map_eq_some'] at h
    obtain ⟨k, hk, hkj⟩ := h
    have := ih (fun hm => hnot (List.mem_cons_of_mem x hm)) k hk
    simp only [List.length_cons]
    omega

theorem containsStr_of_mem (c : Char) (s : Str) (h : c ∈ s) :
    containsStr s [c] = true := by
  induction s with
  | nil => cases h
  | cons x xs ih =>
    by_cases hcx : c = x
    · subst hcx
      rw [containsStr, strFind]
      have hp : hasPre [c] (c :: xs) = true := by simp [hasPre]
      rw [hp]
      rfl
    · have hm : c ∈ xs := by
        rcases List.mem_cons.mp h with h1 | h2
        · exact absurd h1 hcx
        · exact h2
      rw [containsStr, strFind]
      have h0 : hasPre [c] (x :: xs) = false := by simp [hasPre, hcx]
      rw [h0]
      simp only [Bool.false_eq_true, if_false]
      rw [containsStr] at ih
      cases hfind : strFind xs [c] with
      | none => rw [hfind] at ih; exact absurd (ih hm) (by simp)
      | some k => rfl

/-! ### Shape lemmas for the GSO primitives -/

theorem drop_pre_append (pre a rest : Str) :
    (pre ++ (a ++ rest)).drop (pre.length + a.length) = rest := by
  rw [← List.append_assoc, ← List.length_append, List.drop_left]

theorem take_pre_append (pre a rest : Str) :
    (pre ++ (a ++ rest)).take (pre.length + a.length) = pre ++ a := by
  rw [← List.append_assoc, ← List.length_append, List.take_left]

theorem exstr_shape_some (pre a rest b : Str) (j : Nat)
    (hfirst : ∀ i, i < pre.length → hasPre a ((pre ++ (a ++ rest)).drop i) = false)
    (hb : strFind rest b = some j) :
    exstr (pre ++ (a ++ rest)) a b = some (rest.take j) := by
  have hfind : strFind (pre ++ (a ++ rest)) a = some pre.length :=
    strFind_prepend pre (a ++ rest) a (hasPre_append_self a rest) hfirst
  simp only [exstr, hfind, drop_pre_append, hb]

theorem exstr_shape_none (pre a rest b : Str)
    (hfirst : ∀ i, i < pre.length → hasPre a ((pre ++ (a ++ rest)).drop i) = false)
    (hb : strFind rest b = none) :
    exstr (pre ++ (a ++ rest)) a b = none := by
  have hfind : strFind (pre ++ (a ++ rest)) a = some pre.length :=
    strFind_prepend pre (a ++ rest) a (hasPre_append_self a rest) hfirst
  simp only [exstr, hfind, drop_pre_append, hb]

theorem replstr_shape_some (pre a rest b rep : Str) (j : Nat)
    (hfirst : ∀ i, i < pre.length → hasPre a ((pre ++ (a ++ rest)).drop i) = false)
    (hb : strFind rest b = some j) :
    replstr (pre ++ (a ++ rest)) a b rep = some (pre ++ a ++ rep ++ rest.drop j) := by
  have hfind : strFind (pre ++ (a ++ rest)) a = some pre.length :=
    strFind_prepend pre (a ++ rest) a (hasPre_append_self a rest) hfirst
  simp only [replstr, hfind, drop_pre_append, hb, take_pre_append]

theorem csplit_true_shape (pre k rest : Str)
    (hfirst : ∀ i, i < pre.length → hasPre k ((pre ++ (k ++ rest)).drop i) = false) :
    csplit (pre ++ (k ++ rest)) k true = some (pre, k ++ rest) := by
  have hfind : strFind (pre ++ (k ++ rest)) k = some pre.length :=
    strFind_prepend pre (k ++ rest) k (hasPre_append_self k rest) hfirst
  simp only [csplit, hfind, if_pos, List.take_left, List.drop_left]

theorem csplit_false_zero (k suf : Str) :
    csplit (k ++ suf) k false = some (k, suf) := by
  have hfind : strFind (k ++ suf) k = some 0 := by
    apply strFind_locate
    · simpa using hasPre_append_self k suf
    · intro j hj
      exact absurd hj (Nat.not_lt_zero j)
  simp only [csplit, hfind, Bool.false_eq_true, if_false, Nat.zero_add,
    List.take_left, List.drop_left]

/-! ### Digit, parse and render lemmas -/

theorem isDig_digChar (k : Nat) : isDig (digChar k) = true := by
  match k with
  | 0 => decide
  | 1 => decide
  | 2 => decide
  | 3 => decide
  | 4 => decide
  | 5 => decide
  | 6 => decide
  | 7 => decide
  | 8 => decide
  | n + 9 =>
    show isDig '9' = true
    decide

theorem digitVal_digChar (k : Nat) (h : k < 10) : digitVal (digChar k) = k := by
  interval_cases k <;> decide

theorem digitsToNat_append_single (l : Str) (c : Char) :
    digitsToNat (l ++ [c]) = digitsToNat l * 10 + digitVal c := by
  simp [digitsToNat, List.foldl_append]

theorem foldl_replicate_zero (k : Nat) :
    List.foldl (fun acc c => acc * 10 + digitVal c) 0 (List.replicate k '0') = 0 := by
  induction k with
  | zero => rfl
  | succ m ih =>
    rw [List.replicate_succ, List.foldl_cons]
    have h0 : (0 * 10 + digitVal '0') = 0 := by decide
    rw [h0, ih]

theorem digitsToNat_replicate_zero (k : Nat) (l : Str) :
    digitsToNat (List.replicate k '0' ++ l) = digitsToNat l := by
  rw [digitsToNat, List.foldl_append, foldl_replicate_zero]
  rfl

theorem natDigitsAux_toNat : ∀ fuel n, n < fuel →
    digitsToNat (natDigitsAux fuel n) = n := by
  intro fuel
  induction fuel with
  | zero => intro n h; omega
  | succ f ih =>
    intro n h
    rw [natDigitsAux]
    by_cases h10 : n < 10
    · rw [if_pos h10]
      have h1 : digitsToNat [digChar n] = digitVal (digChar n) := by
        simp [digitsToNat]
      rw [h1, digitVal_digChar n h10]
    · rw [if_neg h10]
      rw [digitsToNat_append_single]
      have hdiv : n / 10 < f := by
        have h1 : n / 10 < n := Nat.div_lt_self (by omega) (by omega)
        omega
      rw [ih (n / 10) hdiv, digitVal_digChar (n % 10) (Nat.mod_lt n (by omega))]
      omega

theorem natDigitsAux_dig : ∀ fuel n c, c ∈ natDigitsAux fuel n → isDig c = true := by
  intro fuel
  induction fuel with
  | zero => intro n c h; simp [natDigitsAux] at h
  | succ f ih =>
    intro n c h
    rw [natDigitsAux] at h
    by_cases h10 : n < 10
    · rw [if_pos h10] at h
      rw [List.mem_singleton.mp h]
      exact isDig_digChar n
    · rw [if_neg h10] at h
      rcases List.mem_append.mp h with h1 | h2
      · exact ih (n / 10) c h1
      · rw [List.mem_singleton.mp h2]
        exact isDig_digChar (n % 10)

theorem natDigitsAux_ne_nil (f n : Nat) : natDigitsAux (f + 1) n ≠ [] := by
  rw [natDigitsAux]
  by_cases h10 : n < 10
  · simp [h10]
  · simp [h10]

theorem natDigitsAux_len : ∀ fuel n k, n < fuel → n < 10 ^ k → 1 ≤ k →
    (natDigitsAux fuel n).length ≤ k := by
  intro fuel
  induction fuel with
  | zero => intro n k h; omega
  | succ f ih =>
    intro n k hf hk h1
    rw [natDigitsAux]
    by_cases h10 : n < 10
    · rw [if_pos h10]
      simpa using h1
    · rw [if_neg h10]
      rw [List.length_append]
      have hk2 : 2 ≤ k := by
        by_contra hlt
        have hk1 : k = 1 := by omega
        rw [hk1, pow_one] at hk
        omega
      have hdivk : n / 10 < 10 ^ (k - 1) := by
        rw [Nat.div_lt_iff_lt_mul (by omega : 0 < 10)]
        have hpow : (10 : Nat) ^ (k - 1) * 10 = 10 ^ k := by
          rw [← pow_succ]
          congr 1
          omega
        omega
      have hdivf : n / 10 < f := by
        have h1 : n / 10 < n := Nat.div_lt_self (by omega) (by omega)
        omega
      have := ih (n / 10) (k - 1) hdivf hdivk (by omega)
      simp only [List.length_singleton]
      omega

theorem digitsToNat_natDigits (n : Nat) : digitsToNat (natDigits n) = n :=
  natDigitsAux_toNat (n + 1) n (Nat.lt_succ_self n)

theorem natDigits_dig (n : Nat) (c : Char) (h : c ∈ natDigits n) : isDig c = true :=
  natDigitsAux_dig (n + 1) n c h

theorem natDigits_ne_nil (n : Nat) : natDigits n ≠ [] :=
  natDigitsAux_ne_nil n n

theorem natDigits_len (n k : Nat) (hk : n < 10 ^ k) (h1 : 1 ≤ k) :
    (natDigits n).length ≤ k :=
  natDigitsAux_len (n + 1) n k (Nat.lt_succ_self n) hk h1

theorem takeWhile_app (p : Char → Bool) (a : Str) (x : Char) (r : Str)
    (ha : ∀ c ∈ a, p c = true) (hx : p x = false) :
    (a ++ x :: r).takeWhile p = a ∧ (a ++ x :: r).dropWhile p = x :: r := by
  induction a with
  | nil => simp [List.takeWhile_cons, List.dropWhile_cons, hx]
  | cons y ys ih =>
    have hy : p y = true := ha y (List.mem_cons_self y ys)
    obtain ⟨h1, h2⟩ := ih (fun c hc => ha c (List.mem_cons_of_mem y hc))
    constructor
    · simp [List.takeWhile_cons, hy, h1]
    · simp [List.dropWhile_cons, hy, h2]

theorem parseMantissa_chars (s : Str) (L : Nat × Nat) (h : parseMantissa s = some L) :
    ∀ c ∈ s, isDig c = true ∨ c = '.' := by
  intro c hc
  by_cases hd : isDig c = true
  · exact Or.inl hd
  right
  rw [parseMantissa] at h
  cases hdw : s.dropWhile isDig with
  | nil =>
    rw [hdw] at h
    have hs : s.takeWhile isDig = s := by
      have htd := List.takeWhile_append_dropWhile isDig s
      rw [hdw, List.append_nil] at htd
      exact htd
    have : isDig c = true := List.mem_takeWhile_imp (by rw [hs]; exact hc)
    exact absurd this hd
  | cons c' rest =>
    rw [hdw] at h
    dsimp only at h
    by_cases hcond :
        (decide (c' = '.') && rest.all isDig &&
          !((s.takeWhile isDig).isEmpty && rest.isEmpty)) = true
    · simp only [Bool.and_eq_true, decide_eq_true_eq] at hcond
      obtain ⟨⟨hdot, hall⟩, -⟩ := hcond
      have hs : s = s.takeWhile isDig ++ c' :: rest := by
        rw [← hdw, List.takeWhile_append_dropWhile]
      rw [hs] at hc
      rcases List.mem_append.mp hc with h1 | h2
      · exact absurd (List.mem_takeWhile_imp h1) hd
      · rcases List.mem_cons.mp h2 with h3 | h4
        · rw [h3, hdot]
        · exact absurd (List.all_eq_true.mp hall c h4) hd
    · rw [if_neg hcond] at h
      exact absurd h (by simp)

theorem splitExpChar_fst_of_none : ∀ s : Str,
    (splitExpChar s).2 = none → (splitExpChar s).1 = s := by
  intro s
  induction s with
  | nil => intro _; rfl
  | cons c cs ih =>
    intro h
    by_cases hc : expChar c = true
    · simp [splitExpChar, hc] at h
    · simp only [splitExpChar, hc, Bool.false_eq_true, if_false] at h ⊢
      rw [ih h]

theorem splitExpChar_decomp : ∀ (s r : Str), (splitExpChar s).2 = some r →
    ∃ c, expChar c = true ∧ s = (splitExpChar s).1 ++ c :: r := by
  intro s
  induction s with
  | nil => intro r h; simp [splitExpChar] at h
  | cons c cs ih =>
    intro r h
    by_cases hc : expChar c = true
    · refine ⟨c, hc, ?_⟩
      have h2 : cs = r := by simpa [splitExpChar, hc] using h
      simp [splitExpChar, hc, h2]
    · have h' : (splitExpChar cs).2 = some r := by
        simpa [splitExpChar, hc] using h
      obtain ⟨c', hc', hs⟩ := ih r h'
      refine ⟨c', hc', ?_⟩
      simp only [splitExpChar, hc, Bool.false_eq_true, if_false]
      rw [List.cons_append, ← hs]

theorem splitExpChar_no_exp : ∀ s : Str, (∀ c ∈ s, expChar c = false) →
    splitExpChar s = (s, none) := by
  intro s
  induction s with
  | nil => intro _; rfl
  | cons c cs ih =>
    intro h
    have hc : expChar c = false := h c (List.mem_cons_self c cs)
    have hrec := ih (fun x hx => h x (List.mem_cons_of_mem c hx))
    simp [splitExpChar, hc, hrec]

theorem parseExpPart_chars (s : Str) (x : Int) (h : parseExpPart s = some x) :
    ∀ c ∈ s, isDig c = true ∨ c = '+' ∨ c = '-' := by
  intro c hc
  cases s with
  | nil => simp [parseExpPart] at h
  | cons c0 ds =>
    rw [parseExpPart] at h
    by_cases h0 : c0 = '+'
    · rw [if_pos h0] at h
      by_cases hcond : (ds = [] || !ds.all isDig) = true
      · rw [if_pos hcond] at h
        exact absurd h (by simp)
      · rw [if_neg hcond] at h
        simp only [Bool.or_eq_true, decide_eq_true_eq, Bool.not_eq_true',
          not_or] at hcond
        rcases List.mem_cons.mp hc with hl | hm
        · exact Or.inr (Or.inl (hl.trans h0))
        · exact Or.inl
            (List.all_eq_true.mp (eq_true_of_ne_false hcond.2) c hm)
    · rw [if_neg h0] at h
      by_cases h1 : c0 = '-'
      · rw [if_pos h1] at h
        by_cases hcond : (ds = [] || !ds.all isDig) = true
        · rw [if_pos hcond] at h
          exact absurd h (by simp)
        · rw [if_neg hcond] at h
          simp only [Bool.or_eq_true, decide_eq_true_eq, Bool.not_eq_true',
            not_or] at hcond
          rcases List.mem_cons.mp hc with hl | hm
          · exact Or.inr (Or.inr (hl.trans h1))
          · exact Or.inl
              (List.all_eq_true.mp (eq_true_of_ne_false hcond.2) c hm)
      · rw [if_neg h1] at h
        by_cases hcond : (!(c0 :: ds).all isDig) = true
        · rw [if_pos hcond] at h
          exact absurd h (by simp)
        · rw [if_neg hcond] at h
          simp only [Bool.not_eq_true'] at hcond
          exact Or.inl
            (List.all_eq_true.mp (eq_true_of_ne_false hcond) c hc)

theorem parseDec_chars (s : Str) (L : Nat × Nat) (h : parseDec s = some L) :
    ∀ c ∈ s, tokenOk c = true := by
  intro c hc
  simp only [parseDec] at h
  cases hsp : (splitExpChar s).2 with
  | none =>
    rw [hsp] at h
    have hfst := splitExpChar_fst_of_none s hsp
    have hm : parseMantissa (splitExpChar s).1 = some L := h
    rcases parseMantissa_chars _ L hm c (by rw [hfst]; exact hc) with h1 | h1
    · simp [tokenOk, h1]
    · simp [tokenOk, h1]
  | some ex =>
    rw [hsp] at h
    have h' : (match parseMantissa (splitExpChar s).1, parseExpPart ex with
               | some md, some x => some (applyExp md x)
               | _, _ => none) = some L := h
    cases hm : parseMantissa (splitExpChar s).1 with
    | none =>
      cases hx : parseExpPart ex with
      | none => rw [hm, hx] at h'; exact Option.noConfusion h'
      | some x => rw [hm, hx] at h'; exact Option.noConfusion h'
    | some md =>
      cases hx : parseExpPart ex with
      | none => rw [hm, hx] at h'; exact Option.noConfusion h'
      | some x =>
        obtain ⟨ce, hce, hs⟩ := splitExpChar_decomp s ex hsp
        rw [hs] at hc
        rcases List.mem_append.mp hc with h1 | h2
        · rcases parseMantissa_chars _ md hm c h1 with hd | hd
          · simp [tokenOk, hd]
          · simp [tokenOk, hd]
        · rcases List.mem_cons.mp h2 with h3 | h4
          · subst h3
            simp [tokenOk, hce]
          · rcases parseExpPart_chars ex x hx c h4 with hd | hd | hd <;>
              simp [tokenOk, hd]

theorem parseDec_none_of_bad (s : Str) (c : Char) (hc : c ∈ s)
    (hbad : tokenOk c = false) : parseDec s = none := by
  cases hp : parseDec s with
  | none => rfl
  | some L =>
    rw [parseDec_chars s L hp c hc] at hbad
    exact absurd hbad (by simp)

theorem not_exp_of_isDig (c : Char) (h : isDig c = true) : expChar c = false := by
  by_cases he : c = 'e'
  · rw [he] at h
    exact absurd h (by decide)
  · by_cases hE : c = 'E'
    · rw [hE] at h
      exact absurd h (by decide)
    · simp [expChar, he, hE]

theorem parseMantissa_renderDec (n d : Nat) (hd : 1 ≤ d) :
    parseMantissa (renderDec (n, d)) = some (n, d) := by
  have hpow : 0 < 10 ^ d := Nat.pos_pow_of_pos d (by omega)
  have hrender : renderDec (n, d) =
      natDigits (n / 10 ^ d) ++ '.' ::
        (List.replicate (d - (natDigits (n % 10 ^ d)).length) '0' ++
          natDigits (n % 10 ^ d)) := rfl
  set ip := natDigits (n / 10 ^ d) with hip
  set fd := natDigits (n % 10 ^ d) with hfd
  set rest := List.replicate (d - fd.length) '0' ++ fd with hrest
  have hip_dig : ∀ c ∈ ip, isDig c = true := fun c hc => natDigits_dig _ c hc
  have hrest_dig : ∀ c ∈ rest, isDig c = true := by
    intro c hc
    rcases List.mem_append.mp hc with h1 | h2
    · rw [List.eq_of_mem_replicate h1]
      decide
    · exact natDigits_dig _ c h2
  obtain ⟨htw, hdw⟩ := takeWhile_app isDig ip '.' rest hip_dig (by decide)
  have hlen : fd.length ≤ d :=
    natDigits_len (n % 10 ^ d) d (Nat.mod_lt n hpow) hd
  have hrestlen : rest.length = d := by
    rw [hrest, List.length_append, List.length_replicate]
    omega
  rw [hrender, parseMantissa, hdw]
  dsimp only
  have hcond : (decide ('.' = '.') && rest.all isDig &&
      !(((ip ++ '.' :: rest).takeWhile isDig).isEmpty && rest.isEmpty)) = true := by
    rw [htw]
    have hne : ip.isEmpty = false := by
      cases hip0 : ip with
      | nil => exact absurd (hip ▸ hip0) (natDigits_ne_nil (n / 10 ^ d))
      | cons x xs => rfl
    rw [List.all_eq_true.mpr hrest_dig, hne]
    rfl
  rw [if_pos hcond, htw]
  have hrest_val : digitsToNat rest = n % 10 ^ d := by
    rw [hrest, digitsToNat_replicate_zero, hfd, digitsToNat_natDigits]
  have hip_val : digitsToNat ip = n / 10 ^ d := by
    rw [hip, digitsToNat_natDigits]
  rw [hrest_val, hip_val, hrestlen]
  have hsum : n / 10 ^ d * 10 ^ d + n % 10 ^ d = n := by
    rw [Nat.mul_comm]
    exact Nat.div_add_mod n (10 ^ d)
  rw [hsum]

theorem renderDec_chars (n d : Nat) :
    ∀ c ∈ renderDec (n, d), isDig c = true ∨ c = '.' := by
  intro c hc
  simp only [renderDec] at hc
  rcases List.mem_append.mp hc with h1 | h2
  · exact Or.inl (natDigits_dig _ c h1)
  · rcases List.mem_cons.mp h2 with h3 | h4
    · exact Or.inr h3
    · rcases List.mem_append.mp h4 with h5 | h6
      · left
        rw [List.eq_of_mem_replicate h5]
        decide
      · exact Or.inl (natDigits_dig _ c h6)

theorem parseDec_renderDec (n d : Nat) (hd : 1 ≤ d) :
    parseDec (renderDec (n, d)) = some (n, d) := by
  have hnoexp : ∀ c ∈ renderDec (n, d), expChar c = false := by
    intro c hc
    rcases renderDec_chars n d c hc with h1 | h1
    · exact not_exp_of_isDig c h1
    · rw [h1]
      decide
  have hsplit := splitExpChar_no_exp (renderDec (n, d)) hnoexp
  simp only [parseDec, hsplit]
  exact parseMantissa_renderDec n d hd

/-! ### Value of the halving step -/

/-- Halving a double is exact: the value of `pyHalf F` is exactly half
the value of `F`. -/
theorem pyHalf_val (F : Nat × Int) : dyVal (pyHalf F) * 2 = dyVal F := by
  by_cases h : F.1 = 0
  · simp [pyHalf, dyVal, h]
  · simp only [pyHalf, h, if_neg, dyVal]
    have h2 : (2 : ℚ) ^ (F.2 - 1) * 2 = 2 ^ F.2 := by
      rw [← zpow_add_one₀ (by norm_num : (2 : ℚ) ≠ 0)]
      congr 1
      omega
    calc ((F.1 : ℚ)) * 2 ^ (F.2 - 1) * 2
        = (F.1 : ℚ) * (2 ^ (F.2 - 1) * 2) := by ring
      _ = (F.1 : ℚ) * 2 ^ F.2 := by rw [h2]

theorem stripZerosAux_inv : ∀ d n,
    (stripZerosAux n d).1 * 10 ^ d = n * 10 ^ (stripZerosAux n d).2 := by
  intro d
  induction d using Nat.strong_induction_on with
  | _ d ih =>
    intro n
    match d with
    | 0 => simp [stripZerosAux]
    | 1 => simp [stripZerosAux]
    | d + 2 =>
      rw [stripZerosAux]
      by_cases h : n % 10 = 0
      · rw [if_pos h]
        have hrec := ih (d + 1) (by omega) (n / 10)
        have hdvd : 10 * (n / 10) = n := Nat.mul_div_cancel' (Nat.dvd_of_mod_eq_zero h)
        have hp : (10 : Nat) ^ (d + 2) = 10 ^ (d + 1) * 10 := by rw [← pow_succ]
        calc (stripZerosAux (n / 10) (d + 1)).1 * 10 ^ (d + 2)
            = (stripZerosAux (n / 10) (d + 1)).1 * 10 ^ (d + 1) * 10 := by
              rw [hp, Nat.mul_assoc]
          _ = n / 10 * 10 ^ (stripZerosAux (n / 10) (d + 1)).2 * 10 := by rw [hrec]
          _ = 10 * (n / 10) * 10 ^ (stripZerosAux (n / 10) (d + 1)).2 := by ring
          _ = n * 10 ^ (stripZerosAux (n / 10) (d + 1)).2 := by rw [hdvd]
      · rw [if_neg h]

theorem stripZerosAux_snd_pos : ∀ d n, 1 ≤ d → 1 ≤ (stripZerosAux n d).2 := by
  intro d
  induction d using Nat.strong_induction_on with
  | _ d ih =>
    intro n hd
    match d with
    | 1 => simp [stripZerosAux]
    | d + 2 =>
      rw [stripZerosAux]
      by_cases h : n % 10 = 0
      · rw [if_pos h]
        exact ih (d + 1) (by omega) (n / 10) (by omega)
      · rw [if_neg h]
        simp

theorem halveDec_snd_pos (L : Nat × Nat) : 1 ≤ (halveDec L).2 :=
  stripZerosAux_snd_pos (L.2 + 1) (5 * L.1) (by omega)

/-- The halved value is exactly half the parsed value:
`(halveDec L).1 / 10 ^ (halveDec L).2 = (L.1 / 10 ^ L.2) / 2`, written
multiplicatively over the naturals. -/
theorem halveDec_val (L : Nat × Nat) :
    2 * (halveDec L).1 * 10 ^ L.2 = L.1 * 10 ^ (halveDec L).2 := by
  have hinv := stripZerosAux_inv (L.2 + 1) (5 * L.1)
  rw [halveDec]
  set r := stripZerosAux (5 * L.1) (L.2 + 1) with hr
  have hp : (10 : Nat) ^ (L.2 + 1) = 10 ^ L.2 * 10 := by rw [← pow_succ]
  rw [hp] at hinv
  have h10 : 10 * (2 * r.1 * 10 ^ L.2) = 10 * (L.1 * 10 ^ r.2) := by
    have : r.1 * (10 ^ L.2 * 10) = 5 * L.1 * 10 ^ r.2 := hinv
    nlinarith [this]
  exact Nat.eq_of_mul_eq_mul_left (by omega) h10

/-- Computation of one `tryHalve` arm when the terminator is the first
of its kind after the label and the token parses. -/
theorem tryHalve_shape (pre key tok post : Str) (term : Char) (L : Nat × Nat)
    (hparse : parseDec tok = some L)
    (hnot : term ∉ tok)
    (hfirst : ∀ i, i < pre.length →
      hasPre (key ++ [':'])
        ((pre ++ ((key ++ [':']) ++ (tok ++ term :: post))).drop i) = false) :
    tryHalve (pre ++ ((key ++ [':']) ++ (tok ++ term :: post))) key term =
      some (pre ++ (key ++ [':']) ++ pyStr (pyHalf (pyFloat L)) ++ term :: post,
            pyHalf (pyFloat L)) := by
  have hfb : strFind (tok ++ term :: post) [term] = some tok.length :=
    strFind_char_append term tok post hnot
  have hex := exstr_shape_some pre (key ++ [':']) (tok ++ term :: post) [term]
    tok.length hfirst hfb
  have hrep := replstr_shape_some pre (key ++ [':']) (tok ++ term :: post) [term]
    (pyStr (pyHalf (pyFloat L))) tok.length hfirst hfb
  rw [List.take_left] at hex
  rw [List.drop_left] at hrep
  simp only [tryHalve, hex, hparse, hrep]

/-- Claim C1 (amended): for a tree text in which the first occurrence
of `key ++ ":"` is followed by a parseable token terminated by the
first `')'` or `','` after it, the halving step extracts that token,
replaces it in place — every other character unchanged — by Python's
`str` rendering (12 significant digits) of half the token's double
value, and returns that half; the returned half is exactly half of the
double value of the token.  The written decimal is not in general the
exact decimal halving of the token: see the counterexample. -/
theorem c1_splitBranch_halves (pre key tok post : Str) (term : Char) (L : Nat × Nat)
    (hterm : term = ')' ∨ term = ',')
    (hparse : parseDec tok = some L)
    (hpar : ')' ∉ tok) (hcomma : ',' ∉ tok)
    (hfirst : ∀ i, i < pre.length →
      hasPre (key ++ [':'])
        ((pre ++ ((key ++ [':']) ++ (tok ++ term :: post))).drop i) = false) :
    splitBranch (pre ++ ((key ++ [':']) ++ (tok ++ term :: post))) key =
      some (pre ++ (key ++ [':']) ++ pyStr (pyHalf (pyFloat L)) ++ term :: post,
            pyHalf (pyFloat L)) ∧
    dyVal (pyHalf (pyFloat L)) * 2 = dyVal (pyFloat L) := by
  refine ⟨?_, pyHalf_val (pyFloat L)⟩
  rcases hterm with hterm | hterm
  · subst hterm
    have ht := tryHalve_shape pre key tok post ')' L hparse hpar hfirst
    rw [splitBranch, ht]
  · subst hterm
    have hnone : tryHalve (pre ++ ((key ++ [':']) ++ (tok ++ ',' :: post))) key ')' = none := by
      cases hfb : strFind (tok ++ ',' :: post) [')'] with
      | none =>
        have hex := exstr_shape_none pre (key ++ [':']) (tok ++ ',' :: post) [')'] hfirst hfb
        simp only [tryHalve, hex]
      | some j =>
        have hex := exstr_shape_some pre (key ++ [':']) (tok ++ ',' :: post) [')']
          j hfirst hfb
        have hgt : tok.length < j := strFind_char_gt ')' ',' tok post hpar (by decide) j hfb
        have hmem : ',' ∈ (tok ++ ',' :: post).take j := by
          rw [List.take_append_eq_append_take]
          have h1 : tok.take j = tok := List.take_of_length_le (Nat.le_of_lt hgt)
          cases hm : j - tok.length with
          | zero => omega
          | succ m =>
            rw [h1, List.take_succ_cons]
            exact List.mem_append_right _ (List.mem_cons_self ',' _)
        have hbad : parseDec ((tok ++ ',' :: post).take j) = none :=
          parseDec_none_of_bad _ ',' hmem (by decide)
        simp only [tryHalve, hex, hbad]
    have ht := tryHalve_shape pre key tok post ',' L hparse hcomma hfirst
    rw [splitBranch, hnone, ht]

/-- Claim C1 counterexample: the program's halving step does not write
the exact decimal halving of the branch length.  For the token
`0.3333333333333`, `float` rounds to a double and `str` rounds its half
to 12 significant digits, so the program writes `0.166666666667` where
the claim mandates `0.16666666666665` (the decimal rendering of half),
and the written branch length times two differs from the parsed
value. -/
theorem c1_counterexample :
    parseDec "0.3333333333333".data = some (3333333333333, 13) ∧
    splitBranch "(A,B:0.3333333333333);".data "B".data =
      some ("(A,B:0.166666666667);".data,
            pyHalf (pyFloat (3333333333333, 13))) ∧
    renderDec (halveDec (3333333333333, 13)) = "0.16666666666665".data ∧
    "0.166666666667".data ≠ "0.16666666666665".data ∧
    parseDec "0.166666666667".data = some (166666666667, 12) ∧
    2 * 166666666667 * 10 ^ 13 ≠ 3333333333333 * 10 ^ 12 := by decide

/-- Claim C2: on a text whose first occurrence of the label is followed
by `':'` and the rendered half-length, the splice step returns exactly
the prefix before the label, then `(h#` ++ prob ++ `:` ++ half ++ `,` ++
label ++ `:` ++ half ++ `):` ++ half, then the suffix after the halved
branch length. -/
theorem c2_spliceStep_shape (pre key half suf prob : Str)
    (hfirst : ∀ i, i < pre.length →
      hasPre key ((pre ++ (key ++ (':' :: (half ++ suf)))).drop i) = false) :
    spliceStep (pre ++ (key ++ (':' :: (half ++ suf)))) key half prob =
      some (pre ++ ('(' :: 'h' :: '#' :: prob) ++ (':' :: half) ++
            (',' :: (key ++ (':' :: half))) ++ (')' :: ':' :: half) ++ suf) := by
  have h1 := csplit_true_shape pre key (':' :: (half ++ suf)) hfirst
  have h2 : csplit (key ++ (':' :: (half ++ suf))) (key ++ (':' :: half)) false =
      some (key ++ (':' :: half), suf) := by
    have h0 := csplit_false_zero (key ++ (':' :: half)) suf
    simpa [List.append_assoc] using h0
  simp only [spliceStep, h1, h2]
  simp [List.append_assoc]

/-! ### Lemmas about the node labeler -/

theorem foldl_specScan (s : Str) : ∀ n acc,
    (List.foldl specScanStep (n, acc) s).2 = acc ++ addNodeNumbGo s n := by
  induction s with
  | nil => intro n acc; simp [addNodeNumbGo]
  | cons c cs ih =>
    intro n acc
    rw [List.foldl_cons]
    by_cases hc : c = ')'
    · subst hc
      have hstep : specScanStep (n, acc) ')' =
          (n - 1, acc ++ ')' :: 's' :: natDigits n) := by
        simp [specScanStep]
      have hgo : addNodeNumbGo (')' :: cs) n =
          ')' :: 's' :: natDigits n ++ addNodeNumbGo cs (n - 1) := by
        rw [addNodeNumbGo, if_pos rfl]
      rw [hstep, ih (n - 1) (acc ++ ')' :: 's' :: natDigits n), hgo]
      simp [List.append_assoc]
    · have hstep : specScanStep (n, acc) c = (n, acc ++ [c]) := by
        simp [specScanStep, hc]
      have hgo : addNodeNumbGo (c :: cs) n = c :: addNodeNumbGo cs n := by
        rw [addNodeNumbGo, if_neg hc]
      rw [hstep, ih n (acc ++ [c]), hgo]
      simp [List.append_assoc]

theorem addNodeNumbGo_no_close (s : Str) (h : ')' ∉ s) :
    ∀ n, addNodeNumbGo s n = s := by
  induction s with
  | nil => intro n; rfl
  | cons c cs ih =>
    intro n
    have hc : c ≠ ')' := fun hh => h (hh ▸ List.mem_cons_self c cs)
    rw [addNodeNumbGo, if_neg hc,
      ih (fun hm => h (List.mem_cons_of_mem c hm)) n]

/-- Claim C3: `addNodeNumb` is exactly the spec's one-pass state
machine started at twice the number of closing parentheses — each `')'`
is emitted followed by `'s'` and the current counter value, which then
drops by one, every other character passes through unchanged — and an
input with no `')'` is returned unchanged. -/
theorem c3_addNodeNumb_scan (s : Str) :
    addNodeNumb s = specScan s (2 * s.count ')') ∧
    (s.count ')' = 0 → addNodeNumb s = s) := by
  constructor
  · rw [addNodeNumb, specScan, foldl_specScan s (2 * s.count ')') [],
      List.nil_append, Nat.mul_comm]
  · intro h
    rw [addNodeNumb]
    exact addNodeNumbGo_no_close s (List.count_eq_zero.mp h) _

theorem nodeLabels_closed (s : Str) : ∀ n,
    nodeLabels s n = (List.range (s.count ')')).map (fun i => n - i) := by
  induction s with
  | nil => intro n; simp [nodeLabels]
  | cons c cs ih =>
    intro n
    by_cases hc : c = ')'
    · subst hc
      rw [nodeLabels, if_pos rfl, ih (n - 1)]
      rw [List.count_cons_self, List.range_succ_eq_map]
      simp only [List.map_cons, List.map_map, Nat.sub_zero]
      congr 1
      apply List.map_congr_left
      intro i _
      simp only [Function.comp_apply, Nat.succ_eq_add_one]
      omega
    · rw [nodeLabels, if_neg hc, ih n]
      rw [List.count_cons_of_ne (fun hh => hc hh.symm)]

theorem spliceLabels_cons_close (cs : Str) (l : Nat) (ls : List Nat) :
    spliceLabels (')' :: cs) (l :: ls) =
      ')' :: 's' :: natDigits l ++ spliceLabels cs ls := by
  rw [spliceLabels.eq_def]
  simp

theorem spliceLabels_cons_other (c : Char) (cs : Str) (ls : List Nat)
    (hc : c ≠ ')') : spliceLabels (c :: cs) ls = c :: spliceLabels cs ls := by
  cases ls with
  | nil =>
    rw [spliceLabels.eq_def]
    simp [hc]
  | cons l ls' =>
    rw [spliceLabels.eq_def]
    simp [hc]

theorem spliceLabels_go (s : Str) : ∀ n,
    addNodeNumbGo s n = spliceLabels s (nodeLabels s n) := by
  induction s with
  | nil => intro n; rfl
  | cons c cs ih =>
    intro n
    by_cases hc : c = ')'
    · subst hc
      rw [addNodeNumbGo, if_pos rfl, nodeLabels, if_pos rfl,
        spliceLabels_cons_close, ih (n - 1)]
    · rw [addNodeNumbGo, if_neg hc, nodeLabels, if_neg hc,
        spliceLabels_cons_other c cs _ hc, ih n]

theorem chain_desc : ∀ (k n : Nat), k ≤ n →
    List.Chain' (fun a b => b < a) ((List.range k).map (fun i => n - i)) := by
  intro k
  induction k with
  | zero => intro n _; simp
  | succ m ih =>
    intro n hk
    rw [List.range_succ_eq_map]
    simp only [List.map_cons, List.map_map, Nat.sub_zero]
    rw [List.chain'_cons']
    constructor
    · intro b hb
      cases m with
      | zero => simp at hb
      | succ m' =>
        rw [List.range_succ_eq_map] at hb
        simp only [List.map_cons, Function.comp_apply, List.head?_cons,
          Option.mem_def, Option.some.injEq] at hb
        omega
    · have hmap : (List.range m).map ((fun i => n - i) ∘ Nat.succ) =
          (List.range m).map (fun i => (n - 1) - i) := by
        apply List.map_congr_left
        intro i _
        simp only [Function.comp_apply, Nat.succ_eq_add_one]
        omega
      rw [hmap]
      exact ih (n - 1) (by omega)

/-- Claim C4: for an input with `N ≥ 1` closing parentheses, the labels
`addNodeNumb` appends — `addNodeNumb` interleaves exactly
`emittedLabels` into the text — form a strictly decreasing sequence
whose first element is `2 N` and whose last element is
`2 N - (N - 1)`. -/
theorem c4_labels_decreasing (s : Str) (h : 1 ≤ s.count ')') :
    addNodeNumb s = spliceLabels s (emittedLabels s) ∧
    List.Chain' (fun a b => b < a) (emittedLabels s) ∧
    (emittedLabels s).head? = some (2 * s.count ')') ∧
    (emittedLabels s).getLast? = some (2 * s.count ')' - (s.count ')' - 1))
    := by
  refine ⟨spliceLabels_go s _, ?_, ?_, ?_⟩
  · rw [emittedLabels, nodeLabels_closed]
    exact chain_desc (s.count ')') (s.count ')' * 2) (by omega)
  · rw [emittedLabels, nodeLabels_closed]
    obtain ⟨m, hm⟩ : ∃ m, s.count ')' = m + 1 := ⟨s.count ')' - 1, by omega⟩
    rw [hm, List.range_succ_eq_map]
    simp only [List.map_cons, List.head?_cons, Nat.sub_zero]
    congr 1
    omega
  · rw [emittedLabels, nodeLabels_closed]
    obtain ⟨m, hm⟩ : ∃ m, s.count ')' = m + 1 := ⟨s.count ')' - 1, by omega⟩
    rw [hm, List.range_succ, List.map_append]
    simp only [List.map_cons, List.map_nil, List.getLast?_concat]
    congr 1
    omega

/-! ### Lemmas about the equal-likelihood pre-check -/

theorem isEmpty_false_of_ne_nil {l : Str} (h : l ≠ []) : l.isEmpty = false := by
  cases l with
  | nil => exact absurd rfl h
  | cons a as => rfl

theorem takeWhile_all (p : Char → Bool) (l : Str) (h : ∀ c ∈ l, p c = true) :
    l.takeWhile p = l ∧ l.dropWhile p = [] := by
  induction l with
  | nil => exact ⟨rfl, rfl⟩
  | cons c cs ih =>
    have hc : p c = true := h c (List.mem_cons_self c cs)
    obtain ⟨h1, h2⟩ := ih (fun x hx => h x (List.mem_cons_of_mem c hx))
    constructor
    · simp [List.takeWhile_cons, hc, h1]
    · simp [List.dropWhile_cons, hc, h2]

theorem mem_of_containsStr (s : Str) (c : Char) (h : containsStr s [c] = true) :
    c ∈ s := by
  rw [containsStr] at h
  cases hf : strFind s [c] with
  | none => rw [hf] at h; simp at h
  | some i =>
    obtain ⟨h1, -⟩ := strFind_sound s [c] i hf
    obtain ⟨u, hu⟩ := (hasPre_single c _).mp h1
    have hmem : c ∈ s.drop i := by
      rw [hu]
      exact List.mem_cons_self c u
    have hs := List.take_append_drop i s
    rw [← hs]
    exact List.mem_append_right _ hmem

theorem matchProb_mid (a b : Str) (x : Char) (r : Str)
    (ha : ∀ c ∈ a, isDig c = true) (hb : b ≠ [])
    (hbc : ∀ c ∈ b, isDig c = true) (hx : isDig x = false) :
    matchProb (a ++ ('.' :: (b ++ (x :: r)))) = some (a ++ ('.' :: b), x :: r) := by
  obtain ⟨ht1, hd1⟩ := takeWhile_app isDig a '.' (b ++ (x :: r)) ha (by decide)
  obtain ⟨ht2, hd2⟩ := takeWhile_app isDig b x r hbc hx
  simp only [matchProb, hd1, ht1, ht2, hd2, isEmpty_false_of_ne_nil hb,
    Bool.false_eq_true, if_false]

theorem matchProb_end (a b : Str)
    (ha : ∀ c ∈ a, isDig c = true) (hb : b ≠ [])
    (hbc : ∀ c ∈ b, isDig c = true) :
    matchProb (a ++ ('.' :: b)) = some (a ++ ('.' :: b), []) := by
  obtain ⟨ht1, hd1⟩ := takeWhile_app isDig a '.' b ha (by decide)
  obtain ⟨ht2, hd2⟩ := takeWhile_all isDig b hbc
  simp only [matchProb, hd1, ht1, ht2, hd2, isEmpty_false_of_ne_nil hb,
    Bool.false_eq_true, if_false]

theorem matchPairAt_shape (w1 a1 b1 w2 a2 b2 : Str)
    (hw1 : w1 ≠ []) (hw1c : ∀ c ∈ w1, wordChar c = true)
    (hw2 : w2 ≠ []) (hw2c : ∀ c ∈ w2, wordChar c = true)
    (ha1 : ∀ c ∈ a1, isDig c = true) (hb1 : b1 ≠ [])
    (hb1c : ∀ c ∈ b1, isDig c = true)
    (ha2 : ∀ c ∈ a2, isDig c = true) (hb2 : b2 ≠ [])
    (hb2c : ∀ c ∈ b2, isDig c = true) :
    matchPairAt
      (w1 ++ (':' :: (a1 ++ ('.' :: (b1 ++ (',' ::
        (w2 ++ (':' :: (a2 ++ ('.' :: b2)))))))))) =
      some (a1 ++ ('.' :: b1), a2 ++ ('.' :: b2)) := by
  obtain ⟨htw1, hdw1⟩ := takeWhile_app wordChar w1 ':'
    (a1 ++ ('.' :: (b1 ++ (',' :: (w2 ++ (':' :: (a2 ++ ('.' :: b2))))))))
    hw1c (by decide)
  have hm1 := matchProb_mid a1 b1 ',' (w2 ++ (':' :: (a2 ++ ('.' :: b2))))
    ha1 hb1 hb1c (by decide)
  obtain ⟨htw2, hdw2⟩ := takeWhile_app wordChar w2 ':' (a2 ++ ('.' :: b2))
    hw2c (by decide)
  have hm2 := matchProb_end a2 b2 ha2 hb2 hb2c
  simp only [matchPairAt, htw1, hdw1, isEmpty_false_of_ne_nil hw1,
    Bool.false_eq_true, if_false, hm1, htw2, hdw2, isEmpty_false_of_ne_nil hw2,
    hm2]

theorem regexSearch_shape (w1 a1 b1 w2 a2 b2 : Str)
    (hw1 : w1 ≠ []) (hw1c : ∀ c ∈ w1, wordChar c = true)
    (hw2 : w2 ≠ []) (hw2c : ∀ c ∈ w2, wordChar c = true)
    (ha1 : ∀ c ∈ a1, isDig c = true) (hb1 : b1 ≠ [])
    (hb1c : ∀ c ∈ b1, isDig c = true)
    (ha2 : ∀ c ∈ a2, isDig c = true) (hb2 : b2 ≠ [])
    (hb2c : ∀ c ∈ b2, isDig c = true) :
    regexSearch
      (w1 ++ (':' :: (a1 ++ ('.' :: (b1 ++ (',' ::
        (w2 ++ (':' :: (a2 ++ ('.' :: b2)))))))))) =
      some (a1 ++ ('.' :: b1), a2 ++ ('.' :: b2)) := by
  have hm := matchPairAt_shape w1 a1 b1 w2 a2 b2 hw1 hw1c hw2 hw2c ha1 hb1 hb1c
    ha2 hb2 hb2c
  obtain ⟨wc, w1t, rfl⟩ := List.exists_cons_of_ne_nil hw1
  rw [List.cons_append] at hm ⊢
  rw [regexSearch, hm]

theorem precheck_shape (w1 a1 b1 w2 a2 b2 : Str)
    (hw1 : w1 ≠ []) (hw1c : ∀ c ∈ w1, wordChar c = true)
    (hw2 : w2 ≠ []) (hw2c : ∀ c ∈ w2, wordChar c = true)
    (ha1 : ∀ c ∈ a1, isDig c = true) (hb1 : b1 ≠ [])
    (hb1c : ∀ c ∈ b1, isDig c = true)
    (ha2 : ∀ c ∈ a2, isDig c = true) (hb2 : b2 ≠ [])
    (hb2c : ∀ c ∈ b2, isDig c = true) :
    precheck
      (w1 ++ (':' :: (a1 ++ ('.' :: (b1 ++ (',' ::
        (w2 ++ (':' :: (a2 ++ ('.' :: b2)))))))))) =
      (if a1 ++ ('.' :: b1) = a2 ++ ('.' :: b2) then Except.error .equalLikelihood
       else Except.ok ()) := by
  have hmem : ',' ∈
      (w1 ++ (':' :: (a1 ++ ('.' :: (b1 ++ (',' ::
        (w2 ++ (':' :: (a2 ++ ('.' :: b2)))))))))) := by
    refine List.mem_append_right _ ?_
    refine List.mem_cons_of_mem _ ?_
    refine List.mem_append_right _ ?_
    refine List.mem_cons_of_mem _ ?_
    refine List.mem_append_right _ ?_
    exact List.mem_cons_self _ _
  have hcon := containsStr_of_mem ',' _ hmem
  have hsearch := regexSearch_shape w1 a1 b1 w2 a2 b2 hw1 hw1c hw2 hw2c ha1 hb1
    hb1c ha2 hb2 hb2c
  simp only [precheck, hcon, if_true, hsearch]

/-! ### Error classification of the hybrid step -/

theorem hybrStep_error_cases (t k v : Str) (e : HybErr)
    (h : hybrStep t k v = .error e) :
    e = .missingTaxon ∨ e = .malformedLength := by
  rw [hybrStep] at h
  by_cases hc : containsStr t k = false
  · rw [if_pos hc] at h
    exact Or.inl (Except.error.inj h).symm
  · rw [if_neg hc] at h
    cases hsb : splitBranch t k with
    | none =>
      rw [hsb] at h
      exact Or.inr (Except.error.inj h).symm
    | some r =>
      rw [hsb] at h
      have h2 : (match spliceStep r.1 k (pyStr r.2) v with
                 | none => Except.error HybErr.malformedLength
                 | some t2 => Except.ok t2) = Except.error e := h
      cases hsp : spliceStep r.1 k (pyStr r.2) v with
      | none =>
        rw [hsp] at h2
        exact Or.inr (Except.error.inj h2).symm
      | some t2 =>
        rw [hsp] at h2
        exact absurd h2 (by simp)

theorem addHybrDict_error_cases : ∀ (d : List (Str × Str)) (t : Str) (e : HybErr),
    addHybrDict t d = .error e → e ≠ .equalLikelihood := by
  intro d
  induction d with
  | nil =>
    intro t e h
    rw [addHybrDict] at h
    exact absurd h (by simp)
  | cons kv rest ih =>
    intro t e h
    cases hh : hybrStep t kv.1 kv.2 with
    | error e0 =>
      rw [addHybrDict, hh] at h
      have he : e0 = e := Except.error.inj h
      subst he
      intro heq
      rcases hybrStep_error_cases t kv.1 kv.2 e0 hh with h1 | h1 <;>
        (rw [heq] at h1; exact HybErr.noConfusion h1)
    | ok t1 =>
      rw [addHybrDict, hh] at h
      exact ih t1 e h

theorem pipeline_error_cases (normalize : Str → Str) (p line : Str) (e : HybErr)
    (h : pipeline normalize p line = .error e) : e ≠ .equalLikelihood := by
  rw [pipeline] at h
  cases hb : buildDict (splitOnChar ',' p) [] with
  | none =>
    rw [hb] at h
    have he : HybErr.badParentInfo = e := Except.error.inj h
    intro heq
    rw [heq] at he
    exact HybErr.noConfusion he
  | some d =>
    rw [hb] at h
    have h2 : (match addHybrDict (normalize line) d with
               | .error e0 => Except.error e0
               | .ok t => Except.ok (addNodeNumb t)) = Except.error e := h
    cases ha : addHybrDict (normalize line) d with
    | error e0 =>
      rw [ha] at h2
      have he : e0 = e := Except.error.inj h2
      subst he
      exact addHybrDict_error_cases d (normalize line) e0 ha
    | ok t =>
      rw [ha] at h2
      exact absurd h2 (by simp)

theorem processTrees_error_cases (normalize : Str → Str) (p : Str) :
    ∀ (ts : List Str) (e : HybErr),
      processTrees normalize p ts = .error e → e ≠ .equalLikelihood := by
  intro ts
  induction ts with
  | nil =>
    intro e h
    rw [processTrees] at h
    exact absurd h (by simp)
  | cons t ts' ih =>
    intro e h
    rw [processTrees] at h
    cases hp : pipeline normalize p t with
    | error e0 =>
      rw [hp] at h
      have he : e0 = e := Except.error.inj h
      subst he
      exact pipeline_error_cases normalize p t e0 hp
    | ok o =>
      rw [hp] at h
      cases hrest : processTrees normalize p ts' with
      | error e0 =>
        rw [hrest] at h
        have he : e0 = e := Except.error.inj h
        subst he
        exact ih e0 hrest
      | ok os =>
        rw [hrest] at h
        exact absurd h (by simp)

/-- Claim C6: a hybrid-parent label absent from the tree text makes the
operation fail with the missing-taxon error — and `addHybrDict` then
aborts the whole run with that error, so no output is produced — while
a present label never raises the missing-taxon error. -/
theorem c6_missing_taxon (t key val : Str) :
    (containsStr t key = false →
      hybrStep t key val = .error .missingTaxon ∧
      ∀ rest, addHybrDict t ((key, val) :: rest) = .error .missingTaxon) ∧
    (containsStr t key = true →
      hybrStep t key val ≠ .error .missingTaxon) := by
  constructor
  · intro h
    have h1 : hybrStep t key val = .error .missingTaxon := by
      rw [hybrStep, if_pos h]
    refine ⟨h1, fun rest => ?_⟩
    show (match hybrStep t key val with
          | .error e => Except.error e
          | .ok t1 => addHybrDict t1 rest) = .error .missingTaxon
    rw [h1]
  · intro h hcontra
    rw [hybrStep] at hcontra
    rw [if_neg (by simp [h])] at hcontra
    cases hsb : splitBranch t key with
    | none =>
      rw [hsb] at hcontra
      exact HybErr.noConfusion (Except.error.inj hcontra)
    | some r =>
      rw [hsb] at hcontra
      have h2 : (match spliceStep r.1 key (pyStr r.2) val with
                 | none => Except.error HybErr.malformedLength
                 | some t2 => Except.ok t2) =
          Except.error HybErr.missingTaxon := hcontra
      cases hsp : spliceStep r.1 key (pyStr r.2) val with
      | none =>
        rw [hsp] at h2
        exact HybErr.noConfusion (Except.error.inj h2)
      | some t2 =>
        rw [hsp] at h2
        exact Except.noConfusion h2

/-- Claim C7: on a two-entry specification the split-and-splice
operation is the sequential composition of the two per-entry steps, the
second acting on the text produced by the first, in the fixed order in
which the entries stand in the dictionary; the whole run is a pure
function of its inputs, so two runs on equal inputs produce equal
output. -/
theorem c7_sequential_deterministic (t k1 v1 k2 v2 : Str) :
    addHybrDict t [(k1, v1), (k2, v2)] =
      (match hybrStep t k1 v1 with
       | .error e => Except.error e
       | .ok t1 => hybrStep t1 k2 v2) ∧
    ∀ (normalize : Str → Str) (base : Str) (lines : List Str) (parentInfo : Str)
      (o1 o2 : Except HybErr (Str × Str)),
      runModel normalize base lines parentInfo = o1 →
      runModel normalize base lines parentInfo = o2 → o1 = o2 := by
  constructor
  · cases h1 : hybrStep t k1 v1 with
    | error e => simp only [addHybrDict, h1]
    | ok t1 =>
      cases h2 : hybrStep t1 k2 v2 with
      | error e => simp only [addHybrDict, h1, h2]
      | ok t2 => simp only [addHybrDict, h1, h2]
  · intro normalize base lines parentInfo o1 o2 ho1 ho2
    rw [← ho1, ← ho2]

/-! ### The node labeler re-labels its own output -/

theorem count_close_go (s : Str) : ∀ n,
    (addNodeNumbGo s n).count ')' = s.count ')' := by
  induction s with
  | nil => intro n; rfl
  | cons c cs ih =>
    intro n
    by_cases hc : c = ')'
    · subst hc
      rw [addNodeNumbGo, if_pos rfl]
      have hdig : (natDigits n).count ')' = 0 := by
        rw [List.count_eq_zero]
        intro hmem
        exact absurd (natDigits_dig n ')' hmem) (by decide)
      simp [List.count_cons, List.count_append, hdig, ih (n - 1)]
    · rw [addNodeNumbGo, if_neg hc]
      rw [List.count_cons_of_ne (fun hh => hc hh.symm),
        List.count_cons_of_ne (fun hh => hc hh.symm), ih n]

theorem length_go_ge (s : Str) : ∀ n,
    s.length + 2 * s.count ')' ≤ (addNodeNumbGo s n).length := by
  induction s with
  | nil => intro n; simp [addNodeNumbGo]
  | cons c cs ih =>
    intro n
    by_cases hc : c = ')'
    · subst hc
      rw [addNodeNumbGo, if_pos rfl]
      have hd : 1 ≤ (natDigits n).length :=
        List.length_pos.mpr (natDigits_ne_nil n)
      have hrec := ih (n - 1)
      simp only [List.length_cons, List.length_append, List.count_cons_self]
      omega
    · rw [addNodeNumbGo, if_neg hc]
      have hrec := ih n
      rw [List.count_cons_of_ne (fun hh => hc hh.symm)]
      simp only [List.length_cons]
      omega

/-- Claim C8 counterexample: re-running the labeler on its own labeled
output does re-label — the two results differ on a concrete tree. -/
theorem c8_counterexample :
    ¬ (addNodeNumb (addNodeNumb "(A:1.0,B:2.0);".data) =
        addNodeNumb "(A:1.0,B:2.0);".data) := by decide

/-- Claim C8 (amended): the labeler matches every `')'` character, also
one already followed by an `sN` suffix; labeling preserves the number
of `')'` characters, so a second application inserts a fresh label after
every one of them and, whenever the input has at least one `')'`,
produces a strictly longer, hence different, string. -/
theorem c8_amended_relabels (s : Str) :
    (addNodeNumb s).count ')' = s.count ')' ∧
    (1 ≤ s.count ')' → addNodeNumb (addNodeNumb s) ≠ addNodeNumb s) := by
  have hcount : (addNodeNumb s).count ')' = s.count ')' := count_close_go s _
  refine ⟨hcount, ?_⟩
  intro h1 hcontra
  have hlen := length_go_ge (addNodeNumb s) ((addNodeNumb s).count ')' * 2)
  rw [← addNodeNumb] at hlen
  rw [hcontra] at hlen
  rw [hcount] at hlen
  omega

/-- Claim C5: a two-entry specification whose two probability tokens
are equal makes the run fail with the equal-likelihood error for every
file content and every normalizer — the result does not depend on the
input tree file, so the failure happens before any tree is read or
processed, and no output is produced. -/
theorem c5_equal_likelihood (w1 a1 b1 w2 a2 b2 : Str)
    (hw1 : w1 ≠ []) (hw1c : ∀ c ∈ w1, wordChar c = true)
    (hw2 : w2 ≠ []) (hw2c : ∀ c ∈ w2, wordChar c = true)
    (ha1 : ∀ c ∈ a1, isDig c = true) (hb1 : b1 ≠ [])
    (hb1c : ∀ c ∈ b1, isDig c = true)
    (ha2 : ∀ c ∈ a2, isDig c = true) (hb2 : b2 ≠ [])
    (hb2c : ∀ c ∈ b2, isDig c = true)
    (heq : a1 ++ ('.' :: b1) = a2 ++ ('.' :: b2)) :
    ∀ (normalize : Str → Str) (base : Str) (lines : List Str),
      runModel normalize base lines
        (w1 ++ (':' :: (a1 ++ ('.' :: (b1 ++ (',' ::
          (w2 ++ (':' :: (a2 ++ ('.' :: b2)))))))))) =
      .error .equalLikelihood := by
  intro normalize base lines
  have hp := precheck_shape w1 a1 b1 w2 a2 b2 hw1 hw1c hw2 hw2c ha1 hb1 hb1c
    ha2 hb2 hb2c
  rw [if_pos heq] at hp
  simp only [runModel, hp]

theorem processTrees_length (normalize : Str → Str) (p : Str) :
    ∀ (ts outs : List Str), processTrees normalize p ts = .ok outs →
      outs.length = ts.length := by
  intro ts
  induction ts with
  | nil =>
    intro outs h
    rw [processTrees] at h
    have he : [] = outs := Except.ok.inj h
    rw [← he]
  | cons t ts' ih =>
    intro outs h
    rw [processTrees] at h
    cases hp : pipeline normalize p t with
    | error e =>
      rw [hp] at h
      exact absurd h (by simp)
    | ok o =>
      rw [hp] at h
      cases hrest : processTrees normalize p ts' with
      | error e =>
        rw [hrest] at h
        exact absurd h (by simp)
      | ok os =>
        rw [hrest] at h
        have he : o :: os = outs := Except.ok.inj h
        rw [← he, List.length_cons, List.length_cons, ih os hrest]

theorem splitOnChar_ne_nil (sep : Char) : ∀ s : Str, splitOnChar sep s ≠ [] := by
  intro s
  induction s with
  | nil => simp [splitOnChar]
  | cons c cs ih =>
    rw [splitOnChar]
    by_cases hc : c = sep
    · simp [hc]
    · rw [if_neg hc]
      cases hrec : splitOnChar sep cs with
      | nil => simp
      | cons h t => simp

theorem splitOnChar_length (sep : Char) : ∀ s : Str,
    (splitOnChar sep s).length = s.count sep + 1 := by
  intro s
  induction s with
  | nil => simp [splitOnChar]
  | cons c cs ih =>
    rw [splitOnChar]
    by_cases hc : c = sep
    · subst hc
      rw [if_pos rfl, List.length_cons, ih, List.count_cons_self]
    · rw [if_neg hc]
      cases hrec : splitOnChar sep cs with
      | nil => exact absurd hrec (splitOnChar_ne_nil sep cs)
      | cons hd tl =>
        rw [List.length_cons]
        have hlen : (splitOnChar sep cs).length = tl.length + 1 := by
          rw [hrec]
          rfl
        rw [List.count_cons_of_ne (fun hh => hc hh.symm)]
        omega

theorem keepLine_iff (l : Str) :
    keepLine l = true ↔ (stripWS l ≠ [] ∧ (stripWS l).head? ≠ some '#') := by
  cases hs : stripWS l with
  | nil => simp [keepLine, hs]
  | cons c rest => simp [keepLine, hs]

/-- Claim C9: when the pre-check passes and every kept line processes
successfully, the run produces exactly one transformed tree per
non-blank, non-comment input line (a kept line is one whose stripped
form is non-empty and does not start with `'#'`), joins them with
newlines, and writes them under the input base name with the suffix
`.wHybrid.tre` for a two-entry specification and `.wSister.tre` for a
one-entry specification. -/
theorem c9_run_files (normalize : Str → Str) (base parentInfo : Str)
    (lines outs : List Str)
    (hpre : precheck parentInfo = .ok ())
    (hproc : processTrees normalize parentInfo (lines.filter keepLine) = .ok outs)
    (harity : (splitOnChar ',' parentInfo).length = 1 ∨
              (splitOnChar ',' parentInfo).length = 2) :
    runModel normalize base lines parentInfo =
      .ok (base ++ (if (splitOnChar ',' parentInfo).length = 2
                    then ".wHybrid.tre".data else ".wSister.tre".data),
           joinNL outs) ∧
    outs.length = (lines.filter keepLine).length ∧
    (∀ l, keepLine l = true ↔ (stripWS l ≠ [] ∧ (stripWS l).head? ≠ some '#'))
    := by
  have hsplit := splitOnChar_length ',' parentInfo
  have hcontains : containsStr parentInfo [','] =
      (if (splitOnChar ',' parentInfo).length = 2 then true else false) := by
    rcases harity with h1 | h2
    · rw [h1]
      have hcount : parentInfo.count ',' = 0 := by omega
      have hnmem : ',' ∉ parentInfo := List.count_eq_zero.mp hcount
      cases hcon : containsStr parentInfo [','] with
      | false => simp
      | true => exact absurd (mem_of_containsStr _ _ hcon) hnmem
    · rw [h2]
      have hmem : ',' ∈ parentInfo := by
        rw [← List.count_pos_iff]
        omega
      rw [containsStr_of_mem ',' parentInfo hmem]
      simp
  refine ⟨?_, processTrees_length normalize parentInfo _ outs hproc,
    fun l => keepLine_iff l⟩
  simp only [runModel, hpre, hproc, hcontains]
  by_cases h2 : (splitOnChar ',' parentInfo).length = 2
  · simp [h2]
  · simp [h2]

/-- Claim C10: the equal-likelihood pre-check compares the two
probability tokens as strings: two textually distinct tokens denoting
the same numeric value (`q1.1 / 10 ^ q1.2 = q2.1 / 10 ^ q2.2`, written
multiplicatively) pass the check, and the run can never fail with the
equal-likelihood error. -/
theorem c10_textual_compare (w1 a1 b1 w2 a2 b2 : Str) (q1 q2 : Nat × Nat)
    (hw1 : w1 ≠ []) (hw1c : ∀ c ∈ w1, wordChar c = true)
    (hw2 : w2 ≠ []) (hw2c : ∀ c ∈ w2, wordChar c = true)
    (ha1 : ∀ c ∈ a1, isDig c = true) (hb1 : b1 ≠ [])
    (hb1c : ∀ c ∈ b1, isDig c = true)
    (ha2 : ∀ c ∈ a2, isDig c = true) (hb2 : b2 ≠ [])
    (hb2c : ∀ c ∈ b2, isDig c = true)
    (hne : a1 ++ ('.' :: b1) ≠ a2 ++ ('.' :: b2))
    (hq1 : parseDec (a1 ++ ('.' :: b1)) = some q1)
    (hq2 : parseDec (a2 ++ ('.' :: b2)) = some q2)
    (hnum : q1.1 * 10 ^ q2.2 = q2.1 * 10 ^ q1.2) :
    precheck
      (w1 ++ (':' :: (a1 ++ ('.' :: (b1 ++ (',' ::
        (w2 ++ (':' :: (a2 ++ ('.' :: b2)))))))))) = .ok () ∧
    ∀ (normalize : Str → Str) (base : Str) (lines : List Str) (e : HybErr),
      runModel normalize base lines
        (w1 ++ (':' :: (a1 ++ ('.' :: (b1 ++ (',' ::
          (w2 ++ (':' :: (a2 ++ ('.' :: b2)))))))))) = .error e →
      e ≠ .equalLikelihood := by
  have hp := precheck_shape w1 a1 b1 w2 a2 b2 hw1 hw1c hw2 hw2c ha1 hb1 hb1c
    ha2 hb2 hb2c
  rw [if_neg hne] at hp
  refine ⟨hp, ?_⟩
  intro normalize base lines e h
  simp only [runModel, hp] at h
  cases hpt : processTrees normalize
      (w1 ++ (':' :: (a1 ++ ('.' :: (b1 ++ (',' ::
        (w2 ++ (':' :: (a2 ++ ('.' :: b2))))))))))
      (lines.filter keepLine) with
  | error e0 =>
    rw [hpt] at h
    have he : e0 = e := Except.error.inj h
    subst he
    exact processTrees_error_cases normalize _ _ e0 hpt
  | ok outs =>
    rw [hpt] at h
    exact absurd h (by simp)

/-! ### Witnesses: each claim theorem applied at a concrete input -/

theorem c1_splitBranch_halves_witness :
    splitBranch "(A,B:1.0);".data "B".data =
      some ("(A,B:0.5);".data, pyHalf (pyFloat (10, 1))) ∧
    dyVal (pyHalf (pyFloat (10, 1))) * 2 = dyVal (pyFloat (10, 1)) := by
  have h := c1_splitBranch_halves "(A,".data "B".data "1.0".data ";".data ')'
    (10, 1) (Or.inl rfl) (by decide) (by decide) (by decide) (by decide)
  exact h

theorem c2_spliceStep_shape_witness :
    spliceStep "(A,B:0.5);".data "B".data "0.5".data "0.7".data =
      some "(A,(h#0.7:0.5,B:0.5):0.5);".data := by
  have h := c2_spliceStep_shape "(A,".data "B".data "0.5".data ");".data
    "0.7".data (by decide)
  exact h

theorem c3_addNodeNumb_scan_witness : addNodeNumb "AB;".data = "AB;".data :=
  (c3_addNodeNumb_scan "AB;".data).2 (by decide)

theorem c4_labels_decreasing_witness :
    addNodeNumb "((A,B),C);".data =
      spliceLabels "((A,B),C);".data (emittedLabels "((A,B),C);".data) ∧
    List.Chain' (fun a b => b < a) (emittedLabels "((A,B),C);".data) ∧
    (emittedLabels "((A,B),C);".data).head? =
      some (2 * "((A,B),C);".data.count ')') ∧
    (emittedLabels "((A,B),C);".data).getLast? =
      some (2 * "((A,B),C);".data.count ')' -
        ("((A,B),C);".data.count ')' - 1)) :=
  c4_labels_decreasing "((A,B),C);".data (by decide)

theorem c5_equal_likelihood_witness :
    runModel id "t".data ["(A,B);".data] "A:0.5,B:0.5".data =
      .error .equalLikelihood := by
  have h := c5_equal_likelihood "A".data "0".data "5".data "B".data "0".data
    "5".data (by decide) (by decide) (by decide) (by decide) (by decide)
    (by decide) (by decide) (by decide) (by decide) (by decide) rfl
    id "t".data ["(A,B);".data]
  exact h

theorem c6_missing_taxon_witness :
    addHybrDict "(A,B);".data [("Q".data, "0.5".data)] =
      .error .missingTaxon :=
  ((c6_missing_taxon "(A,B);".data "Q".data "0.5".data).1 (by decide)).2 []

theorem c7_sequential_deterministic_witness :
    runModel id "t".data ["(A:1.0,B:2.0);".data] "A:0.6,B:0.4".data =
      runModel id "t".data ["(A:1.0,B:2.0);".data] "A:0.6,B:0.4".data :=
  (c7_sequential_deterministic [] [] [] [] []).2 id "t".data
    ["(A:1.0,B:2.0);".data] "A:0.6,B:0.4".data _ _ rfl rfl

theorem c8_amended_relabels_witness :
    (addNodeNumb "(A,B);".data).count ')' = "(A,B);".data.count ')' ∧
    addNodeNumb (addNodeNumb "(A,B);".data) ≠ addNodeNumb "(A,B);".data := by
  obtain ⟨h1, h2⟩ := c8_amended_relabels "(A,B);".data
  exact ⟨h1, h2 (by decide)⟩

theorem c9_run_files_witness :
    runModel id "t".data ["(A:1.0,B:2.0);".data, [], "# note".data]
      "A:0.6,B:0.4".data =
      .ok ("t".data ++ (if (splitOnChar ',' "A:0.6,B:0.4".data).length = 2
                        then ".wHybrid.tre".data else ".wSister.tre".data),
           joinNL ["((h#0.6:0.5,A:0.5)s6:0.5,(h#0.4:1.0,B:1.0)s5:1.0)s4;".data]) :=
  (c9_run_files id "t".data "A:0.6,B:0.4".data
    ["(A:1.0,B:2.0);".data, [], "# note".data]
    ["((h#0.6:0.5,A:0.5)s6:0.5,(h#0.4:1.0,B:1.0)s5:1.0)s4;".data]
    (by decide) (by decide) (Or.inr (by decide))).1

theorem c10_textual_compare_witness :
    precheck "A:0.5,B:0.50".data = .ok () := by
  have h := (c10_textual_compare "A".data "0".data "5".data "B".data "0".data
    "50".data (5, 1) (50, 2) (by decide) (by decide) (by decide) (by decide)
    (by decide) (by decide) (by decide) (by decide) (by decide) (by decide)
    (by decide) (by decide) (by decide) (by decide)).1
  exact h

end HybridLambda
